import Mathlib

/-!
Verification development for the DAG-viewer layout engine
(`calculate_layout`, `walk_outputs`, `walk_tree`, orphan reconciliation,
`topological_layers` in `dagViewer.py`).

The Python code is shallowly embedded as follows.

* A node identity is a `Nat`.  A `Node` records the results of the four
  relation accessors (`get_parents`, `get_children`, `get_inputs`,
  `get_outputs`), each a list of node identities in accessor order
  (`child.get_id()` applied to each returned object).
* A `Graph` is the `dag_nodes` dictionary: its key list `keys`
  (in dictionary iteration order, keys unique like a Python dict) together
  with a total universe function `node` giving the node object carrying a
  given identity.  `dag_nodes[i]` succeeds exactly when `i ∈ keys`; an
  accessor may mention an identity outside `keys` (the object exists but
  is not in the dictionary), which is why `node` is total.
* Python dictionaries (`positions`, `foundnodes`, `rootchains`) are
  association lists with Python-dict insertion semantics (`dinsert`): a
  new key is appended, an existing key is updated in place.
* The recursive walkers can fail to terminate on cyclic graphs, so they
  are embedded with a fuel parameter.  `LRes.ok` is normal return,
  `LRes.err` models a raised `KeyError` (a failed `dag_nodes[...]`
  lookup), and `LRes.spin` models fuel exhaustion: a computation whose
  result is `spin` for every fuel value is one whose Python original
  recurses forever.  Coordinates are integers (all constants are even,
  so `layer_height / 2 = 100` is exact).
-/

namespace DagViewer

/-- Outcome of a fueled computation: normal result, raised `KeyError`,
or out of fuel. -/
inductive LRes (α : Type) where
  | ok : α → LRes α
  | err : LRes α
  | spin : LRes α
deriving Repr, DecidableEq

/-- The four relation accessors of one node object
(`get_parents`, `get_children`, `get_inputs`, `get_outputs`),
each already mapped through `get_id`. -/
structure Node where
  parents : List Nat
  children : List Nat
  inputs : List Nat
  outputs : List Nat
deriving Repr, DecidableEq

/-- The `dag_nodes` dictionary: key list in iteration order (unique, as in
a Python dict) plus the universe of node objects. -/
structure Graph where
  keys : List Nat
  node : Nat → Node
  nodup : keys.Nodup

/-- Python-dict insertion: update an existing key in place, append a new
key at the end. -/
def dinsert {α : Type} : List (Nat × α) → Nat → α → List (Nat × α)
  | [], k, v => [(k, v)]
  | (k', v') :: rest, k, v =>
      if k' = k then (k, v) :: rest else (k', v') :: dinsert rest k v

/-- Python-dict lookup. -/
def dlookup {α : Type} : List (Nat × α) → Nat → Option α
  | [], _ => none
  | (k', v') :: rest, k => if k' = k then some v' else dlookup rest k

/-- The key list of an association-list dictionary. -/
def dkeys {α : Type} (m : List (Nat × α)) : List Nat :=
  m.map Prod.fst

/-- `foundnodes` dictionary: identity → depth (`-1` marks a lost child). -/
abbrev FMap := List (Nat × Int)

/-- `rootchains` dictionary: chain root → ordered chain of identities. -/
abbrev CMap := List (Nat × List Nat)

/-- The Position Map: identity → (x, y). -/
abbrev PMap := List (Nat × (Int × Int))

/-- Control state of the Root-Chain Walker `walk_outputs`:
either about to run the body on one identity at a depth, or iterating
the `for child in ... get_outputs()` loop at a depth. -/
inductive WCmd where
  | visit (nid : Nat) (level : Int)
  | walk (outs : List Nat) (level : Int)
deriving Repr, DecidableEq

/-- Fueled embedding of `walk_outputs` (dagViewer.py lines 431-439).
State is the pair (`foundnodes`, chain accumulator).  The
`node_id not in children_ids` early return consumes no fuel (the Python
call returns immediately without recursing); every recursive step costs
one unit of fuel.  `dag_nodes[node_id]` on an identity outside the
dictionary is a raised `KeyError`, i.e. `.err`. -/
def woGo (g : Graph) (ch : List Nat) : Nat → WCmd → FMap × List Nat → LRes (FMap × List Nat)
  | 0, .visit nid _, st => if nid ∈ ch then .spin else .ok st
  | 0, .walk [] _, st => .ok st
  | 0, .walk (_ :: _) _, _ => .spin
  | f + 1, .visit nid lvl, st =>
      if nid ∈ ch then
        let st' := if (dlookup st.1 nid).isSome then st
                   else (dinsert st.1 nid lvl, st.2 ++ [nid])
        if nid ∈ g.keys then
          woGo g ch f (.walk (g.node nid).outputs (lvl + 1)) st'
        else .err
      else .ok st
  | _ + 1, .walk [] _, st => .ok st
  | f + 1, .walk (c :: rest) lvl, st =>
      match woGo g ch f (.visit c lvl) st with
      | .ok st' => woGo g ch f (.walk rest lvl) st'
      | r => r

/-- `walk_outputs(node_id, dag_nodes, level, foundnodes, rootchains,
children_ids)`: run the Root-Chain Walker body on one start identity. -/
def walk_outputs (g : Graph) (ch : List Nat) (fuel : Nat) (nid : Nat) (lvl : Int)
    (st : FMap × List Nat) : LRes (FMap × List Nat) :=
  woGo g ch fuel (.visit nid lvl) st

/-- The first loop of `walk_tree` (lines 455-459): seed a chain at every
child whose own `inputs` list is empty, calling `walk_outputs` with the
shared `foundnodes` and a fresh chain accumulator.  Returns
(`childroots`, `foundnodes`, `rootchains`). -/
def buildChains (g : Graph) (f : Nat) (allIds : List Nat) :
    List Nat → List Nat → FMap → CMap → LRes (List Nat × FMap × CMap)
  | [], croots, found, chains => .ok (croots, found, chains)
  | c :: rest, croots, found, chains =>
      if (g.node c).inputs.isEmpty then
        match woGo g allIds f (.visit c 0) (found, []) with
        | .ok (found', chain') =>
            buildChains g f allIds rest (croots ++ [c]) found' (dinsert chains c chain')
        | .err => .err
        | .spin => .spin
      else buildChains g f allIds rest croots found chains

/-- The second loop of `walk_tree` (lines 461-466): every child never
reached by a chain walk becomes its own chain root with an empty chain
("lost child"). -/
def addLost : List Nat → List Nat → FMap → CMap → List Nat × FMap × CMap
  | [], croots, found, chains => (croots, found, chains)
  | c :: rest, croots, found, chains =>
      if (dlookup found c).isSome then addLost rest croots found chains
      else addLost rest (croots ++ [c]) (dinsert found c (-1)) (dinsert chains c [])

/-- Control state of the Tree Walker `walk_tree`: run the body on one
node, iterate the `for root in childroots` loop, or iterate the
`for child in chain` loop. -/
inductive TCmd where
  | node (nid : Nat) (x y : Int)
  | chains (roots : List Nat) (chains : CMap) (startX y maxX : Int)
  | chain (lst : List Nat) (x y : Int)
deriving Repr

/-- Fueled embedding of `walk_tree` (dagViewer.py lines 441-488) and its
two inner loops (lines 470-485).  The body positions the node, advances
y by `layer_height = 200`, builds the chains of its children, then lays
chains out: each chain restarts at `start_x`, its root is positioned
there, the cursor advances by `base_node_width = 150`, every chain
member (the chain includes its root) is walked recursively, y advances
by 100 per chain, and the maximum cursor is returned.  A failed
`dag_nodes[...]` lookup is `.err`. -/
def wtGo (g : Graph) : Nat → TCmd → PMap → LRes (Int × PMap)
  | 0, _, _ => .spin
  | f + 1, .node nid x y, pos =>
      if nid ∈ g.keys then
        match buildChains g f (g.node nid).children (g.node nid).children [] [] [] with
        | .ok (croots, found, chains) =>
            match addLost (g.node nid).children croots found chains with
            | (croots', _, chains') =>
                wtGo g f (.chains croots' chains' x (y + 200) (x + 150))
                  (dinsert pos nid (x, y))
        | .err => .err
        | .spin => .spin
      else .err
  | _ + 1, .chains [] _ _ _ maxX, pos => .ok (maxX, pos)
  | f + 1, .chains (root :: rest) chains startX y maxX, pos =>
      let chain := (dlookup chains root).getD []
      let pos := dinsert pos root (startX, y)
      match wtGo g f (.chain chain (startX + 150) y) pos with
      | .ok (x, pos) => wtGo g f (.chains rest chains startX (y + 100) (max x maxX)) pos
      | r => r
  | _ + 1, .chain [] x _, pos => .ok (x, pos)
  | f + 1, .chain (c :: cs) x y, pos =>
      match wtGo g f (.node c x y) pos with
      | .ok (x', pos') => wtGo g f (.chain cs x' y) pos'
      | r => r

/-- `walk_tree(node_id, dag_nodes, x, y, positions)`. -/
def walk_tree (g : Graph) (fuel : Nat) (nid : Nat) (x y : Int) (pos : PMap) :
    LRes (Int × PMap) :=
  wtGo g fuel (.node nid x y) pos

/-- Root discovery (lines 424-428): nodes with no parents, in dictionary
iteration order. -/
def rootsOf (g : Graph) : List Nat :=
  g.keys.filter (fun id => (g.node id).parents.isEmpty)

/-- The `for root in roots` loop of `calculate_layout` (lines 490-494):
walk each root tree, threading the x cursor and stepping y by
`layer_height / 2 = 100`. -/
def rootsLoop (g : Graph) (fuel : Nat) : List Nat → Int → Int → PMap → LRes (Int × PMap)
  | [], x, _, pos => .ok (x, pos)
  | r :: rest, x, y, pos =>
      match wtGo g fuel (.node r x y) pos with
      | .ok (x', pos') => rootsLoop g fuel rest x' (y + 100) pos'
      | e => e

/-- Orphan reconciliation (lines 496-502): every dictionary key still
missing from `positions` is placed at `(x, 0)` with x advancing by
`base_node_width = 150`. -/
def orphanLoop : List Nat → Int → PMap → PMap
  | [], _, pos => pos
  | k :: rest, x, pos =>
      if (dlookup pos k).isSome then orphanLoop rest x pos
      else orphanLoop rest (x + 150) (dinsert pos k (x, 0))

/-- `calculate_layout` (dagViewer.py lines 419-504): root discovery, the
root-tree walk, then orphan reconciliation. -/
def calculate_layout (g : Graph) (fuel : Nat) : LRes PMap :=
  match rootsLoop g fuel (rootsOf g) 0 0 [] with
  | .ok (x, pos) => .ok (orphanLoop g.keys x pos)
  | .err => .err
  | .spin => .spin

/-- Ghost-instrumented copy of the `for root in childroots` loop of
`walk_tree` (lines 470-485).  It computes exactly what
`wtGo g _ (.chains ...)` computes (see `chainsLoopT_agrees`), and
additionally records, per chain, the triple
(chain root, x at which the chain root is placed, x returned after the
chain), so that the per-chain cursor values of the source loop can be
stated as theorems. -/
def chainsLoopT (g : Graph) :
    Nat → List Nat → CMap → Int → Int → Int → PMap → List (Nat × Int × Int) →
    LRes (Int × PMap × List (Nat × Int × Int))
  | 0, _, _, _, _, _, _, _ => .spin
  | _ + 1, [], _, _, _, maxX, pos, tr => .ok (maxX, pos, tr)
  | f + 1, root :: rest, chains, startX, y, maxX, pos, tr =>
      let chain := (dlookup chains root).getD []
      let pos := dinsert pos root (startX, y)
      match wtGo g f (.chain chain (startX + 150) y) pos with
      | .ok (x, pos) =>
          chainsLoopT g f rest chains startX (y + 100) (max x maxX) pos
            (tr ++ [(root, startX, x)])
      | .err => .err
      | .spin => .spin

/-- Initial in-degree of `topological_layers` (line 533): the length of
each node's `parents` list. -/
def inDeg0 (g : Graph) : Nat → Int :=
  fun id => ((g.node id).parents.length : Int)

/-- One `in_degree[child_id] -= 1` step (lines 549-552), guarded by
`child_id in in_degree` (the in-degree dictionary holds exactly the
graph keys). -/
def decOne (g : Graph) (d : Nat → Int) (c : Nat) : Nat → Int :=
  if c ∈ g.keys then fun k => if k = c then d c - 1 else d k else d

/-- Decrement the in-degree of every child of one placed node. -/
def decNode (g : Graph) (d : Nat → Int) (nid : Nat) : Nat → Int :=
  (g.node nid).children.foldl (decOne g) d

/-- Decrement the in-degrees contributed by one whole layer. -/
def decLayer (g : Graph) (d : Nat → Int) (layer : List Nat) : Nat → Int :=
  layer.foldl (decNode g) d

/-- Fueled embedding of the `while remaining` loop of
`topological_layers` (dagViewer.py lines 530-554).  `remaining` is kept
as a list in iteration order; the deadlock break `next(iter(remaining))`
is modelled as its first element.  The second component is a ghost flag
recording whether the cycle-break branch was ever taken. -/
def topoLoop (g : Graph) : Nat → List Nat → (Nat → Int) → List (List Nat) × Bool
  | 0, _, _ => ([], false)
  | f + 1, remaining, d =>
      match remaining with
      | [] => ([], false)
      | r0 :: _ =>
          let zs := remaining.filter (fun id => decide (d id = 0))
          let layer := if zs.isEmpty then [r0] else zs
          let rest := topoLoop g f (remaining.filter (fun id => decide (id ∉ layer)))
            (decLayer g d layer)
          (layer :: rest.1, zs.isEmpty || rest.2)

/-- `topological_layers` (lines 530-554).  `g.keys.length` units of fuel
always suffice: every iteration removes at least one node. -/
def topological_layers (g : Graph) : List (List Nat) :=
  (topoLoop g g.keys.length g.keys (inDeg0 g)).1

/-- Ghost flag: did `topological_layers` ever take the cycle-break
branch (`if not current_layer`, line 540)? -/
def topoBroke (g : Graph) : Bool :=
  (topoLoop g g.keys.length g.keys (inDeg0 g)).2

/-- A graph all of whose `children` accessors stay inside the graph:
no containment reference dangles. -/
def WFChildren (g : Graph) : Prop :=
  ∀ id ∈ g.keys, ∀ c ∈ (g.node id).children, c ∈ g.keys

/-- A graph whose `children` lists are duplicate-free. -/
def NodupChildren (g : Graph) : Prop :=
  ∀ id ∈ g.keys, (g.node id).children.Nodup

/-- Consistent parent/child bookkeeping: each node's `parents` list has
exactly one entry per occurrence of the node in a graph key's `children`
list. -/
def ConsistentDeg (g : Graph) : Prop :=
  ∀ c ∈ g.keys,
    (g.node c).parents.length = (g.keys.map (fun p => (g.node p).children.count c)).sum

/-- Every key of a Position Map is a Graph key, and no key repeats. -/
def PosBound (g : Graph) (pos : PMap) : Prop :=
  (∀ k ∈ dkeys pos, k ∈ g.keys) ∧ (dkeys pos).Nodup

/-- Precondition on a Tree Walker control state: every identity the
remaining work will position is a Graph key. -/
def TCmdBound (g : Graph) : TCmd → Prop
  | .node nid _ _ => nid ∈ g.keys
  | .chain lst _ _ => ∀ c ∈ lst, c ∈ g.keys
  | .chains roots chains _ _ _ =>
      (∀ r ∈ roots, r ∈ g.keys) ∧
        (∀ r c, c ∈ (dlookup chains r).getD [] → c ∈ g.keys)

/-- What a successful Tree Walker step guarantees to have positioned:
for a node, the node itself and all its children; for a chain, every
chain member; for the chains loop, every chain root and every stored
chain member. -/
def TCmdCover (g : Graph) : TCmd → PMap → Prop
  | .node nid _ _, pos' =>
      nid ∈ dkeys pos' ∧ ∀ c ∈ (g.node nid).children, c ∈ dkeys pos'
  | .chain lst _ _, pos' => ∀ c ∈ lst, c ∈ dkeys pos'
  | .chains roots chains _ _ _, pos' =>
      ∀ r ∈ roots, r ∈ dkeys pos' ∧
        ∀ c ∈ (dlookup chains r).getD [], c ∈ dkeys pos'

/-- A node object with all four accessors empty. -/
def blankNode : Node := ⟨[], [], [], []⟩

/-- Concrete graph: root 0 with two input-free children 1 and 2 (two
one-node chains under the same parent). -/
def g3 : Graph where
  keys := [0, 1, 2]
  node := fun id =>
    match id with
    | 0 => ⟨[], [1, 2], [], []⟩
    | 1 => ⟨[0], [], [], []⟩
    | 2 => ⟨[0], [], [], []⟩
    | _ => blankNode
  nodup := by decide

/-- Concrete graph: root 0 with two children 1 and 2 that both have a
non-empty `inputs` list (a self input), so both are "lost children" with
empty chains. -/
def g3L : Graph where
  keys := [0, 1, 2]
  node := fun id =>
    match id with
    | 0 => ⟨[], [1, 2], [], []⟩
    | 1 => ⟨[0], [], [1], []⟩
    | 2 => ⟨[0], [], [2], []⟩
    | _ => blankNode
  nodup := by decide

/-- Concrete malformed graph: the only key is root 0, whose `children`
accessor mentions identity 1, which is not a key; node object 1 has a
non-empty `inputs` list. -/
def gM : Graph where
  keys := [0]
  node := fun id =>
    match id with
    | 0 => ⟨[], [1], [], []⟩
    | 1 => ⟨[0], [], [5], []⟩
    | _ => blankNode
  nodup := by decide

/-- Concrete malformed graph: the only key is root 0, whose `children`
accessor mentions identity 1, which is not a key; node object 1 has an
empty `inputs` list, so the chain walk visits it. -/
def gC4 : Graph where
  keys := [0]
  node := fun id =>
    match id with
    | 0 => ⟨[], [1], [], []⟩
    | 1 => ⟨[0], [], [], []⟩
    | _ => blankNode
  nodup := by decide

/-- Concrete graph with an output cycle inside one parent's child set:
root 0 has children 1 and 2, with outputs 1 → 2 and 2 → 1, and node 1
has no inputs (so it seeds a chain walk that runs into the cycle). -/
def gCyc : Graph where
  keys := [0, 1, 2]
  node := fun id =>
    match id with
    | 0 => ⟨[], [1, 2], [], []⟩
    | 1 => ⟨[0], [], [], [2]⟩
    | 2 => ⟨[0], [], [1], [1]⟩
    | _ => blankNode
  nodup := by decide

/-- Concrete graph: root 0 has a lost child 1 (self input), and node 1
has its own child 2, which no chain walk ever reaches. -/
def g6 : Graph where
  keys := [0, 1, 2]
  node := fun id =>
    match id with
    | 0 => ⟨[], [1], [], []⟩
    | 1 => ⟨[0], [2], [1], []⟩
    | 2 => ⟨[1], [], [], []⟩
    | _ => blankNode
  nodup := by decide

/-- Concrete graph with asymmetric parent/child bookkeeping: node 0
lists 1 as a child but node 1 has an empty `parents` list. -/
def gA : Graph where
  keys := [0, 1]
  node := fun id =>
    match id with
    | 0 => ⟨[], [1], [], []⟩
    | 1 => ⟨[], [], [], []⟩
    | _ => blankNode
  nodup := by decide

/-- Concrete consistent two-node graph: 0 is the parent of 1. -/
def gT : Graph where
  keys := [0, 1]
  node := fun id =>
    match id with
    | 0 => ⟨[], [1], [], []⟩
    | 1 => ⟨[0], [], [], []⟩
    | _ => blankNode
  nodup := by decide

/-- Concrete graph with a containment cycle covering all nodes: 3 and 4
are each other's parents, so root discovery finds nothing. -/
def gW : Graph where
  keys := [3, 4]
  node := fun id =>
    match id with
    | 3 => ⟨[4], [], [], []⟩
    | 4 => ⟨[3], [], [], []⟩
    | _ => blankNode
  nodup := by decide

/-! ## Dictionary lemmas -/

theorem dlookup_dinsert_self {α : Type} (m : List (Nat × α)) (k : Nat) (v : α) :
    dlookup (dinsert m k v) k = some v := by
  induction m with
  | nil => simp [dinsert, dlookup]
  | cons p rest ih =>
      obtain ⟨k', v'⟩ := p
      by_cases h : k' = k <;> simp [dinsert, dlookup, h, ih]

theorem dlookup_dinsert_ne {α : Type} (m : List (Nat × α)) (k k' : Nat) (v : α)
    (h : k' ≠ k) : dlookup (dinsert m k v) k' = dlookup m k' := by
  induction m with
  | nil => simp [dinsert, dlookup, Ne.symm h]
  | cons p rest ih =>
      obtain ⟨k0, v0⟩ := p
      by_cases h0 : k0 = k
      · subst h0
        simp [dinsert, dlookup, Ne.symm h]
      · simp [dinsert, dlookup, h0, ih]

theorem dkeys_dinsert {α : Type} (m : List (Nat × α)) (k : Nat) (v : α) :
    dkeys (dinsert m k v) = if k ∈ dkeys m then dkeys m else dkeys m ++ [k] := by
  induction m with
  | nil => simp [dinsert, dkeys]
  | cons p rest ih =>
      obtain ⟨k0, v0⟩ := p
      by_cases h0 : k0 = k
      · subst h0
        simp [dinsert, dkeys]
      · simp only [dinsert, if_neg h0, dkeys, List.map_cons, List.mem_cons]
        rw [show (dkeys (dinsert rest k v) : List Nat) = List.map Prod.fst (dinsert rest k v)
          from rfl] at ih
        rw [ih]
        have hkk : ¬ (k = k0) := fun hh => h0 hh.symm
        by_cases hm : k ∈ List.map Prod.fst rest <;> simp [dkeys, hm, hkk]

theorem mem_dkeys_dinsert {α : Type} (m : List (Nat × α)) (k k' : Nat) (v : α) :
    k' ∈ dkeys (dinsert m k v) ↔ k' = k ∨ k' ∈ dkeys m := by
  rw [dkeys_dinsert]
  by_cases hm : k ∈ dkeys m
  · simp only [if_pos hm]
    constructor
    · exact Or.inr
    · rintro (rfl | h)
      · exact hm
      · exact h
  · simp only [if_neg hm, List.mem_append, List.mem_singleton]
    tauto

theorem nodup_dkeys_dinsert {α : Type} (m : List (Nat × α)) (k : Nat) (v : α)
    (h : (dkeys m).Nodup) : (dkeys (dinsert m k v)).Nodup := by
  rw [dkeys_dinsert]
  by_cases hm : k ∈ dkeys m
  · simpa [hm] using h
  · simp only [if_neg hm, List.nodup_append, List.nodup_singleton]
    exact ⟨h, by simp, by simpa [List.disjoint_singleton] using hm⟩

theorem dlookup_isSome_iff_mem {α : Type} (m : List (Nat × α)) (k : Nat) :
    (dlookup m k).isSome ↔ k ∈ dkeys m := by
  induction m with
  | nil => simp [dlookup, dkeys]
  | cons p rest ih =>
      obtain ⟨k0, v0⟩ := p
      by_cases h0 : k0 = k <;> simp [dlookup, dkeys, h0, ih]
      exact fun h => (h0 h.symm).elim

/-! ## Claim C9: the Root-Chain Walker is a no-op outside the allowed set -/

/-- C9.  For every call to `walk_outputs` whose start identity is not in
the allowed-id set (`children_ids`), the call is a no-op: the shared
found map and the chain accumulator are returned unchanged (Python
mutates neither) and no outputs of the start node are traversed.
Confirmed: lines 432-433 return before touching any state. -/
theorem c9_walk_outputs_noop (g : Graph) (ch : List Nat) (fuel : Nat) (nid : Nat)
    (lvl : Int) (st : FMap × List Nat) (h : nid ∉ ch) :
    walk_outputs g ch fuel nid lvl st = .ok st := by
  cases fuel <;> simp [walk_outputs, woGo, h]

/-- Witness for C9 at a concrete input: identity 7 is not among the
allowed ids `[1, 2]`, and the call returns the state unchanged. -/
theorem c9_walk_outputs_noop_witness :
    walk_outputs g3 [1, 2] 5 7 0 ([(3, 0)], [3]) = .ok ([(3, 0)], [3]) :=
  c9_walk_outputs_noop g3 [1, 2] 5 7 0 ([(3, 0)], [3]) (by decide)

/-! ## Claim C8: determinism -/

/-- C8.  The layout computation is deterministic: two invocations on the
same Graph snapshot (same keys in the same iteration order, same
relation accessor results for every node object) produce identical
Position Maps.  Confirmed: `calculate_layout` is a pure function of the
snapshot and the fixed spacing constants. -/
theorem c8_layout_deterministic (g1 g2 : Graph) (fuel : Nat)
    (hk : g1.keys = g2.keys) (hn : ∀ id, g1.node id = g2.node id) :
    calculate_layout g1 fuel = calculate_layout g2 fuel := by
  obtain ⟨k1, n1, hnd1⟩ := g1
  obtain ⟨k2, n2, hnd2⟩ := g2
  dsimp only at hk hn
  subst hk
  obtain rfl : n1 = n2 := funext hn
  rfl

/-- Witness for C8 at a concrete input. -/
theorem c8_layout_deterministic_witness :
    calculate_layout gT 5 = calculate_layout gT 5 :=
  c8_layout_deterministic gT gT 5 rfl (fun _ => rfl)

/-! ## Claim C10: layout of a graph with no roots -/

theorem orphanLoop_preserve (ks : List Nat) (x : Int) (pos : PMap) (k : Nat)
    (v : Int × Int) (h : dlookup pos k = some v) :
    dlookup (orphanLoop ks x pos) k = some v := by
  induction ks generalizing x pos with
  | nil => simpa [orphanLoop] using h
  | cons k' rest ih =>
      simp only [orphanLoop]
      by_cases hk : (dlookup pos k').isSome
      · simp only [hk, if_true]
        exact ih x pos h
      · simp only [hk, if_false]
        apply ih
        have hne : k ≠ k' := by
          rintro rfl
          simp [h] at hk
        rw [dlookup_dinsert_ne pos k' k (x, 0) hne]
        exact h

theorem orphanLoop_indexed (ks : List Nat) (x : Int) (pos : PMap)
    (hnd : ks.Nodup) (hnone : ∀ k ∈ ks, dlookup pos k = none) :
    ∀ i (hi : i < ks.length),
      dlookup (orphanLoop ks x pos) (ks.get ⟨i, hi⟩) = some (x + 150 * i, 0) := by
  induction ks generalizing x pos with
  | nil => intro i hi; exact absurd hi (by simp)
  | cons k rest ih =>
      intro i hi
      have h0 : dlookup pos k = none := hnone k (by simp)
      match i with
      | 0 =>
          simp only [orphanLoop, h0, Option.isSome_none, Bool.false_eq_true, if_false,
            List.get, List.length_cons]
          have := orphanLoop_preserve rest (x + 150) (dinsert pos k (x, 0)) k (x, 0)
            (dlookup_dinsert_self pos k (x, 0))
          simpa using this
      | i + 1 =>
          simp only [orphanLoop, h0, Option.isSome_none, Bool.false_eq_true, if_false,
            List.get, List.length_cons]
          have hnd' : rest.Nodup := hnd.of_cons
          have hk : k ∉ rest := by
            simp [List.nodup_cons] at hnd
            exact hnd.1
          have hnone' : ∀ k' ∈ rest, dlookup (dinsert pos k (x, 0)) k' = none := by
            intro k' hk'
            have hne : k' ≠ k := fun hh => hk (hh ▸ hk')
            rw [dlookup_dinsert_ne pos k k' (x, 0) hne]
            exact hnone k' (by simp [hk'])
          have := ih (x + 150) (dinsert pos k (x, 0)) hnd' hnone' i (by
            simpa using Nat.lt_of_succ_lt_succ hi)
          rw [this]
          congr 1
          push_cast
          ring_nf

/-- C10.  When no node of the Graph has an empty parents sequence, root
discovery finds no roots, the tree walk never runs, and every node is
placed purely by orphan reconciliation: the i-th key in Graph iteration
order receives position `(i * base_node_width, 0) = (150 * i, 0)`.
Confirmed: lines 424-428 leave `roots` empty and lines 496-502 then
assign `(x, 0)` with x starting at 0 and advancing by 150 per node. -/
theorem c10_orphan_only_layout (g : Graph) (fuel : Nat)
    (h : ∀ id ∈ g.keys, (g.node id).parents ≠ []) :
    calculate_layout g fuel = .ok (orphanLoop g.keys 0 []) ∧
      ∀ i (hi : i < g.keys.length),
        dlookup (orphanLoop g.keys 0 []) (g.keys.get ⟨i, hi⟩) = some (150 * (i : Int), 0) := by
  have hroots : rootsOf g = [] := by
    rw [rootsOf, List.filter_eq_nil_iff]
    intro a ha
    simp only [List.isEmpty_iff, Bool.not_eq_true]
    exact fun hh => (h a ha hh).elim
  constructor
  · simp [calculate_layout, hroots, rootsLoop]
  · intro i hi
    have := orphanLoop_indexed g.keys 0 [] g.nodup (fun k _ => rfl) i hi
    simpa using this

/-- Witness for C10 at a concrete input: in `gW`, nodes 3 and 4 are each
other's parents, so both are placed on the synthetic orphan row. -/
theorem c10_orphan_only_layout_witness :
    calculate_layout gW 5 = .ok (orphanLoop gW.keys 0 []) ∧
      dlookup (orphanLoop gW.keys 0 []) 4 = some (150, 0) := by
  have H := c10_orphan_only_layout gW 5 (by decide)
  refine ⟨H.1, ?_⟩
  have := H.2 1 (by decide)
  simpa using this

/-! ## Claim C2: output cycle inside one parent's child set -/

theorem gCyc_walk_spin : ∀ f (lvl : Int) (st : FMap × List Nat),
    (woGo gCyc [1, 2] f (.visit 1 lvl) st = .spin ∧
      woGo gCyc [1, 2] f (.visit 2 lvl) st = .spin) ∧
    (woGo gCyc [1, 2] f (.walk [2] lvl) st = .spin ∧
      woGo gCyc [1, 2] f (.walk [1] lvl) st = .spin) := by
  intro f
  induction f with
  | zero =>
      intro lvl st
      refine ⟨⟨?_, ?_⟩, ?_, ?_⟩ <;> simp [woGo]
  | succ f ih =>
      intro lvl st
      refine ⟨⟨?_, ?_⟩, ?_, ?_⟩
      · show woGo gCyc [1, 2] (f + 1) (.visit 1 lvl) st = .spin
        simp only [woGo]
        rw [if_pos (by decide), if_pos (by decide)]
        exact ((ih (lvl + 1) _).2).1
      · show woGo gCyc [1, 2] (f + 1) (.visit 2 lvl) st = .spin
        simp only [woGo]
        rw [if_pos (by decide), if_pos (by decide)]
        exact ((ih (lvl + 1) _).2).2
      · show woGo gCyc [1, 2] (f + 1) (.walk [2] lvl) st = .spin
        simp only [woGo]
        rw [((ih lvl st).1).2]
      · show woGo gCyc [1, 2] (f + 1) (.walk [1] lvl) st = .spin
        simp only [woGo]
        rw [((ih lvl st).1).1]

/-- C2 is a code bug.  The spec demands that a Graph with an output
cycle inside one parent's child set return from layout in bounded time,
but seeding a chain at input-free child 1 of `gCyc` (outputs 1 → 2 and
2 → 1, both children of root 0) makes `walk_outputs` revisit found nodes
for ever: lines 434-438 skip re-appending a found node but still
traverse its outputs, so the recursion never stops.  In the fueled
embedding the whole layout exhausts any amount of fuel. -/
theorem c2_output_cycle_diverges : ∀ fuel, calculate_layout gCyc fuel = .spin := by
  intro fuel
  cases fuel with
  | zero => rfl
  | succ f =>
      have h := ((gCyc_walk_spin f 0 ([], [])).1).1
      have e1 : buildChains gCyc f [1, 2] [1, 2] [] [] [] =
          match woGo gCyc [1, 2] f (.visit 1 0) ([], []) with
          | .ok (found', chain') =>
              buildChains gCyc f [1, 2] [2] [1] found' (dinsert [] 1 chain')
          | .err => .err
          | .spin => .spin := rfl
      have hb : buildChains gCyc f [1, 2] [1, 2] [] [] [] = .spin := by
        rw [e1, h]
      have e2 : wtGo gCyc (f + 1) (.node 0 0 0) [] =
          match buildChains gCyc f [1, 2] [1, 2] [] [] [] with
          | .ok (croots, found, chains) =>
              match addLost [1, 2] croots found chains with
              | (croots', _, chains') =>
                  wtGo gCyc f (.chains croots' chains' 0 200 150) [(0, (0, 0))]
          | .err => .err
          | .spin => .spin := rfl
      have hwt : wtGo gCyc (f + 1) (.node 0 0 0) [] = .spin := by
        rw [e2, hb]
      have e3 : calculate_layout gCyc (f + 1) =
          match (match wtGo gCyc (f + 1) (.node 0 0 0) [] with
                 | .ok (x', pos') => rootsLoop gCyc (f + 1) [] x' 100 pos'
                 | e => e) with
          | .ok (x, pos) => .ok (orphanLoop gCyc.keys x pos)
          | .err => .err
          | .spin => .spin := rfl
      rw [e3, hwt]

/-! ## Claim C4: relation accessor mentioning a missing identity -/

/-- C4 is a code bug.  The spec demands that a relation accessor
mentioning an identity absent from the Graph never make layout raise,
but in `gC4` root 0's `children` contains identity 1, which is not a
dictionary key and has no inputs; the chain walk visits it and
`dag_nodes[node_id]` on line 438 raises `KeyError` (`.err`), for every
sufficient amount of fuel. -/
theorem c4_missing_child_raises : ∀ f, calculate_layout gC4 (f + 2) = .err := by
  intro f
  rfl

/-! ## Structural lemmas about the Root-Chain Walker -/

theorem isSome_dlookup_dinsert {α : Type} (m : List (Nat × α)) (k k' : Nat) (v : α) :
    (dlookup (dinsert m k v) k').isSome ↔ k' = k ∨ (dlookup m k').isSome := by
  rw [dlookup_isSome_iff_mem, dlookup_isSome_iff_mem, mem_dkeys_dinsert]

/-- `walk_outputs` only ever appends to the chain accumulator, appends
only identities from the allowed set, and records an identity in the
shared found map exactly when it appends it to the chain. -/
theorem woGo_append (g : Graph) (ch : List Nat) :
    ∀ f cmd st res, woGo g ch f cmd st = .ok res →
      ∃ δ, res.2 = st.2 ++ δ ∧ (∀ k ∈ δ, k ∈ ch) ∧
        (∀ k, (dlookup res.1 k).isSome ↔ ((dlookup st.1 k).isSome ∨ k ∈ δ)) := by
  intro f
  induction f with
  | zero =>
      intro cmd st res h
      match cmd with
      | .visit nid lvl =>
          by_cases hm : nid ∈ ch
          · simp [woGo, hm] at h
          · simp only [woGo, if_neg hm, LRes.ok.injEq] at h
            subst h
            exact ⟨[], by simp, by simp, by simp⟩
      | .walk [] lvl =>
          simp only [woGo, LRes.ok.injEq] at h
          subst h
          exact ⟨[], by simp, by simp, by simp⟩
      | .walk (c :: rest) lvl => simp [woGo] at h
  | succ f ih =>
      intro cmd st res h
      match cmd with
      | .visit nid lvl =>
          by_cases hm : nid ∈ ch
          · simp only [woGo, if_pos hm] at h
            by_cases hk : nid ∈ g.keys
            · rw [if_pos hk] at h
              by_cases hf : (dlookup st.1 nid).isSome
              · rw [if_pos hf] at h
                exact ih _ _ _ h
              · rw [if_neg hf] at h
                obtain ⟨δ', h1, h2, h3⟩ := ih _ _ _ h
                refine ⟨nid :: δ', ?_, ?_, ?_⟩
                · simpa [List.append_assoc] using h1
                · intro k hk'
                  rcases List.mem_cons.mp hk' with rfl | hk'
                  · exact hm
                  · exact h2 k hk'
                · intro k
                  rw [h3 k, isSome_dlookup_dinsert]
                  simp only [List.mem_cons]
                  tauto
            · rw [if_neg hk] at h
              cases h
          · simp only [woGo, if_neg hm, LRes.ok.injEq] at h
            subst h
            exact ⟨[], by simp, by simp, by simp⟩
      | .walk [] lvl =>
          simp only [woGo, LRes.ok.injEq] at h
          subst h
          exact ⟨[], by simp, by simp, by simp⟩
      | .walk (c :: rest) lvl =>
          simp only [woGo] at h
          cases hv : woGo g ch f (.visit c lvl) st with
          | ok st1 =>
              rw [hv] at h
              obtain ⟨δ1, h11, h12, h13⟩ := ih _ _ _ hv
              obtain ⟨δ2, h21, h22, h23⟩ := ih _ _ _ h
              refine ⟨δ1 ++ δ2, ?_, ?_, ?_⟩
              · rw [h21, h11, List.append_assoc]
              · intro k hk'
                rcases List.mem_append.mp hk' with hk' | hk'
                · exact h12 k hk'
                · exact h22 k hk'
              · intro k
                rw [h23 k, h13 k]
                simp only [List.mem_append]
                tauto
          | err => rw [hv] at h; cases h
          | spin => rw [hv] at h; cases h

theorem dlookup_dinsert {α : Type} (m : List (Nat × α)) (k k' : Nat) (v : α) :
    dlookup (dinsert m k v) k' = if k' = k then some v else dlookup m k' := by
  by_cases h : k' = k
  · subst h
    simp [dlookup_dinsert_self]
  · simp [h, dlookup_dinsert_ne m k k' v h]

/-- The first `walk_tree` loop only creates chain roots from the child
list and only stores chains whose members are allowed ids. -/
theorem buildChains_sub (g : Graph) (f : Nat) (allIds : List Nat) :
    ∀ cs croots found chains croots' found' chains',
      buildChains g f allIds cs croots found chains = .ok (croots', found', chains') →
      (∀ r ∈ croots', r ∈ croots ∨ r ∈ cs) ∧
        (∀ r c, c ∈ (dlookup chains' r).getD [] →
          c ∈ (dlookup chains r).getD [] ∨ c ∈ allIds) := by
  intro cs
  induction cs with
  | nil =>
      intro croots found chains croots' found' chains' h
      simp only [buildChains, LRes.ok.injEq, Prod.mk.injEq] at h
      obtain ⟨rfl, rfl, rfl⟩ := h
      exact ⟨fun r hr => Or.inl hr, fun r c hc => Or.inl hc⟩
  | cons c rest ih =>
      intro croots found chains croots' found' chains' h
      simp only [buildChains] at h
      by_cases hin : (g.node c).inputs.isEmpty
      · rw [if_pos hin] at h
        cases hw : woGo g allIds f (.visit c 0) (found, []) with
        | ok st1 =>
            obtain ⟨fd1, ch1⟩ := st1
            simp only [hw] at h
            obtain ⟨hr, hc⟩ := ih _ _ _ _ _ _ h
            constructor
            · intro r hrr
              rcases hr r hrr with hrr | hrr
              · rcases List.mem_append.mp hrr with hrr | hrr
                · exact Or.inl hrr
                · simp only [List.mem_singleton] at hrr
                  subst hrr
                  exact Or.inr (by simp)
              · exact Or.inr (List.mem_cons_of_mem _ hrr)
            · intro r c' hcc
              rcases hc r c' hcc with hcc | hcc
              · rw [dlookup_dinsert] at hcc
                by_cases hrc : r = c
                · rw [if_pos hrc] at hcc
                  obtain ⟨δ, h1, h2, _⟩ := woGo_append g allIds f _ _ _ hw
                  simp only [List.nil_append] at h1
                  right
                  apply h2
                  simp only [Option.getD_some] at hcc
                  exact h1 ▸ hcc
                · rw [if_neg hrc] at hcc
                  exact Or.inl hcc
              · exact Or.inr hcc
        | err => simp [hw] at h
        | spin => simp [hw] at h
      · rw [if_neg hin] at h
        obtain ⟨hr, hc⟩ := ih _ _ _ _ _ _ h
        refine ⟨fun r hrr => ?_, hc⟩
        rcases hr r hrr with hrr | hrr
        · exact Or.inl hrr
        · exact Or.inr (List.mem_cons_of_mem _ hrr)

/-- The lost-child loop only creates chain roots from the child list and
only stores empty chains. -/
theorem addLost_sub :
    ∀ cs croots found chains,
      (∀ r ∈ (addLost cs croots found chains).1, r ∈ croots ∨ r ∈ cs) ∧
        (∀ r c, c ∈ (dlookup (addLost cs croots found chains).2.2 r).getD [] →
          c ∈ (dlookup chains r).getD []) := by
  intro cs
  induction cs with
  | nil =>
      intro croots found chains
      exact ⟨fun r hr => Or.inl hr, fun r c hc => hc⟩
  | cons c rest ih =>
      intro croots found chains
      simp only [addLost]
      by_cases hf : (dlookup found c).isSome
      · rw [if_pos hf]
        obtain ⟨h1, h2⟩ := ih croots found chains
        refine ⟨fun r hr => ?_, h2⟩
        rcases h1 r hr with hr | hr
        · exact Or.inl hr
        · exact Or.inr (List.mem_cons_of_mem _ hr)
      · rw [if_neg hf]
        obtain ⟨h1, h2⟩ := ih (croots ++ [c]) (dinsert found c (-1)) (dinsert chains c [])
        constructor
        · intro r hr
          rcases h1 r hr with hr | hr
          · rcases List.mem_append.mp hr with hr | hr
            · exact Or.inl hr
            · simp only [List.mem_singleton] at hr
              subst hr
              exact Or.inr (by simp)
          · exact Or.inr (List.mem_cons_of_mem _ hr)
        · intro r c' hc
          have := h2 r c' hc
          rw [dlookup_dinsert] at this
          by_cases hrc : r = c
          · rw [if_pos hrc] at this
            simp at this
          · rwa [if_neg hrc] at this

/-- Main invariant of the Tree Walker: starting from a bounded Position
Map and bounded pending work, a successful walk returns a bounded
Position Map, and position keys are never removed. -/
theorem wtGo_bound (g : Graph) (hwf : WFChildren g) :
    ∀ f cmd pos x' pos', TCmdBound g cmd → PosBound g pos →
      wtGo g f cmd pos = .ok (x', pos') →
      PosBound g pos' ∧ ∀ k ∈ dkeys pos, k ∈ dkeys pos' := by
  intro f
  induction f with
  | zero => intro cmd pos x' pos' _ _ h; cases h
  | succ f ih =>
      intro cmd pos x' pos' hcmd hpos h
      match cmd with
      | .node nid x y =>
          have hk : nid ∈ g.keys := hcmd
          simp only [wtGo, if_pos hk] at h
          cases hb : buildChains g f (g.node nid).children (g.node nid).children [] [] []
            with
          | ok tr =>
              obtain ⟨croots, found, chains⟩ := tr
              simp only [hb] at h
              rcases hal : addLost (g.node nid).children croots found chains with
                ⟨croots', found', chains'⟩
              simp only [hal] at h
              have hsub := buildChains_sub g f (g.node nid).children _ _ _ _ _ _ _ hb
              have hsub2 := addLost_sub (g.node nid).children croots found chains
              rw [hal] at hsub2
              have hc1 : ∀ r ∈ croots', r ∈ g.keys := by
                intro r hr
                rcases hsub2.1 r hr with hr2 | hr2
                · rcases hsub.1 r hr2 with h3 | h3
                  · cases h3
                  · exact hwf nid hk r h3
                · exact hwf nid hk r hr2
              have hc2 : ∀ r c, c ∈ (dlookup chains' r).getD [] → c ∈ g.keys := by
                intro r c hc
                have h4 := hsub2.2 r c hc
                rcases hsub.2 r c h4 with h3 | h3
                · simp [dlookup] at h3
                · exact hwf nid hk c h3
              have hpos1 : PosBound g (dinsert pos nid (x, y)) := by
                constructor
                · intro k hk'
                  rcases (mem_dkeys_dinsert pos nid k (x, y)).mp hk' with rfl | hk'
                  · exact hk
                  · exact hpos.1 k hk'
                · exact nodup_dkeys_dinsert pos nid (x, y) hpos.2
              have hI := ih (.chains croots' chains' x (y + 200) (x + 150)) _ _ _
                ⟨hc1, hc2⟩ hpos1 h
              exact ⟨hI.1, fun k hk' =>
                hI.2 k ((mem_dkeys_dinsert pos nid k (x, y)).mpr (Or.inr hk'))⟩
          | err => simp [hb] at h
          | spin => simp [hb] at h
      | .chains roots chains startX y maxX =>
          match roots with
          | [] =>
              simp only [wtGo, LRes.ok.injEq, Prod.mk.injEq] at h
              obtain ⟨_, rfl⟩ := h
              exact ⟨hpos, fun k hk => hk⟩
          | root :: rest =>
              simp only [wtGo] at h
              cases hv : wtGo g f
                  (.chain ((dlookup chains root).getD []) (startX + 150) y)
                  (dinsert pos root (startX, y)) with
              | ok p2 =>
                  obtain ⟨x2, pos2⟩ := p2
                  simp only [hv] at h
                  have hroot : root ∈ g.keys := hcmd.1 root (by simp)
                  have hpos1 : PosBound g (dinsert pos root (startX, y)) := by
                    constructor
                    · intro k hk'
                      rcases (mem_dkeys_dinsert pos root k (startX, y)).mp hk' with
                        rfl | hk'
                      · exact hroot
                      · exact hpos.1 k hk'
                    · exact nodup_dkeys_dinsert pos root (startX, y) hpos.2
                  have h1 := ih (.chain ((dlookup chains root).getD []) (startX + 150) y)
                    _ _ _ (fun c hc => hcmd.2 root c hc) hpos1 hv
                  have h2 := ih (.chains rest chains startX (y + 100) (max x2 maxX)) _ _ _
                    ⟨fun r hr => hcmd.1 r (List.mem_cons_of_mem _ hr), hcmd.2⟩ h1.1 h
                  exact ⟨h2.1, fun k hk' => h2.2 k (h1.2 k
                    ((mem_dkeys_dinsert pos root k (startX, y)).mpr (Or.inr hk')))⟩
              | err => simp [hv] at h
              | spin => simp [hv] at h
      | .chain lst cx y =>
          match lst with
          | [] =>
              simp only [wtGo, LRes.ok.injEq, Prod.mk.injEq] at h
              obtain ⟨_, rfl⟩ := h
              exact ⟨hpos, fun k hk => hk⟩
          | c :: cs =>
              simp only [wtGo] at h
              cases hv : wtGo g f (.node c cx y) pos with
              | ok p2 =>
                  obtain ⟨x2, pos2⟩ := p2
                  simp only [hv] at h
                  have h1 := ih (.node c cx y) _ _ _ (hcmd c (by simp)) hpos hv
                  have h2 := ih (.chain cs x2 y) _ _ _
                    (fun c' hc' => hcmd c' (List.mem_cons_of_mem _ hc')) h1.1 h
                  exact ⟨h2.1, fun k hk' => h2.2 k (h1.2 k hk')⟩
              | err => simp [hv] at h
              | spin => simp [hv] at h

theorem rootsLoop_bound (g : Graph) (hwf : WFChildren g) (fuel : Nat) :
    ∀ roots x y pos x' pos', (∀ r ∈ roots, r ∈ g.keys) → PosBound g pos →
      rootsLoop g fuel roots x y pos = .ok (x', pos') → PosBound g pos' := by
  intro roots
  induction roots with
  | nil =>
      intro x y pos x' pos' _ hpos h
      simp only [rootsLoop, LRes.ok.injEq, Prod.mk.injEq] at h
      obtain ⟨_, rfl⟩ := h
      exact hpos
  | cons r rest ih =>
      intro x y pos x' pos' hroots hpos h
      simp only [rootsLoop] at h
      cases hv : wtGo g fuel (.node r x y) pos with
      | ok p2 =>
          obtain ⟨x2, pos2⟩ := p2
          simp only [hv] at h
          have h1 := wtGo_bound g hwf fuel (.node r x y) _ _ _ (hroots r (by simp))
            hpos hv
          exact ih x2 (y + 100) pos2 x' pos'
            (fun r' hr' => hroots r' (List.mem_cons_of_mem _ hr')) h1.1 h
      | err => simp [hv] at h
      | spin => simp [hv] at h

theorem orphanLoop_bound (g : Graph) :
    ∀ ks x pos, (∀ k ∈ ks, k ∈ g.keys) → PosBound g pos →
      PosBound g (orphanLoop ks x pos) := by
  intro ks
  induction ks with
  | nil => intro x pos _ hpos; exact hpos
  | cons k0 rest ih =>
      intro x pos hks hpos
      simp only [orphanLoop]
      by_cases hf : (dlookup pos k0).isSome
      · rw [if_pos hf]
        exact ih x pos (fun k' hk' => hks k' (List.mem_cons_of_mem _ hk')) hpos
      · rw [if_neg hf]
        apply ih (x + 150) _ (fun k' hk' => hks k' (List.mem_cons_of_mem _ hk'))
        constructor
        · intro k' hk'
          rcases (mem_dkeys_dinsert pos k0 k' (x, 0)).mp hk' with heq | hk2
          · rw [heq]
            exact hks k0 (by simp)
          · exact hpos.1 k' hk2
        · exact nodup_dkeys_dinsert pos k0 (x, 0) hpos.2

theorem mem_orphanLoop_mono :
    ∀ ks (x : Int) (pos : PMap) k, k ∈ dkeys pos → k ∈ dkeys (orphanLoop ks x pos) := by
  intro ks
  induction ks with
  | nil => intro x pos k hk; exact hk
  | cons k' rest ih =>
      intro x pos k hk
      simp only [orphanLoop]
      by_cases hf : (dlookup pos k').isSome
      · rw [if_pos hf]
        exact ih x pos k hk
      · rw [if_neg hf]
        exact ih (x + 150) _ k ((mem_dkeys_dinsert pos k' k (x, 0)).mpr (Or.inr hk))

theorem mem_orphanLoop_self :
    ∀ ks (x : Int) (pos : PMap) k, k ∈ ks → k ∈ dkeys (orphanLoop ks x pos) := by
  intro ks
  induction ks with
  | nil => intro x pos k hk; cases hk
  | cons k' rest ih =>
      intro x pos k hk
      simp only [orphanLoop]
      by_cases hf : (dlookup pos k').isSome
      · rw [if_pos hf]
        rcases List.mem_cons.mp hk with rfl | hk
        · exact mem_orphanLoop_mono rest x pos k
            ((dlookup_isSome_iff_mem pos k).mp hf)
        · exact ih x pos k hk
      · rw [if_neg hf]
        rcases List.mem_cons.mp hk with rfl | hk
        · exact mem_orphanLoop_mono rest (x + 150) _ k
            ((mem_dkeys_dinsert pos k k (x, 0)).mpr (Or.inl rfl))
        · exact ih (x + 150) _ k hk

/-- C1 amended.  As stated the claim fails on graphs whose `children`
accessors mention identities outside the Graph (see
`c1_counterexample`): such an identity can be positioned as a lost
child.  Restricted to graphs whose `children` accessors return only
Graph keys, every run of the layout that returns a Position Map returns
one whose key set is exactly the Graph's key set, each key exactly
once. -/
theorem c1_keyset_amended (g : Graph) (fuel : Nat) (pos : PMap)
    (hwf : WFChildren g) (h : calculate_layout g fuel = .ok pos) :
    (∀ k, k ∈ dkeys pos ↔ k ∈ g.keys) ∧ (dkeys pos).Nodup := by
  rw [calculate_layout] at h
  cases hr : rootsLoop g fuel (rootsOf g) 0 0 [] with
  | ok p =>
      obtain ⟨x1, pos1⟩ := p
      rw [hr] at h
      simp only [LRes.ok.injEq] at h
      subst h
      have hroots : ∀ r ∈ rootsOf g, r ∈ g.keys := by
        intro r hr'
        exact List.mem_of_mem_filter hr'
      have hpos1 : PosBound g pos1 :=
        rootsLoop_bound g hwf fuel (rootsOf g) 0 0 [] x1 pos1 hroots
          ⟨fun k hk => (by cases hk), by simp [dkeys]⟩ hr
      have hfinal : PosBound g (orphanLoop g.keys x1 pos1) :=
        orphanLoop_bound g g.keys x1 pos1 (fun k hk => hk) hpos1
      refine ⟨fun k => ⟨fun hk => hfinal.1 k hk, fun hk => ?_⟩, hfinal.2⟩
      exact mem_orphanLoop_self g.keys x1 pos1 k hk
  | err => rw [hr] at h; cases h
  | spin => rw [hr] at h; cases h

/-- Witness for the amended C1 at a concrete input: the well-formed
graph `gT` lays out to exactly its own keys. -/
theorem c1_keyset_amended_witness :
    (∀ k, k ∈ dkeys [((0 : Nat), ((0 : Int), (0 : Int))), (1, (150, 200))] ↔
        k ∈ gT.keys) ∧
      (dkeys [((0 : Nat), ((0 : Int), (0 : Int))), (1, (150, 200))]).Nodup :=
  c1_keyset_amended gT 10 [(0, (0, 0)), (1, (150, 200))]
    (by unfold WFChildren; decide) rfl

/-- The ghost-instrumented chains loop computes exactly what the
Tree Walker's `.chains` state computes, trace aside. -/
theorem chainsLoopT_agrees (g : Graph) :
    ∀ f roots chains startX y maxX pos tr,
      (match chainsLoopT g f roots chains startX y maxX pos tr with
       | .ok (m, p, _) => wtGo g f (.chains roots chains startX y maxX) pos = .ok (m, p)
       | .err => wtGo g f (.chains roots chains startX y maxX) pos = .err
       | .spin => wtGo g f (.chains roots chains startX y maxX) pos = .spin) := by
  intro f
  induction f with
  | zero => intro roots chains startX y maxX pos tr; rfl
  | succ f ih =>
      intro roots chains startX y maxX pos tr
      match roots with
      | [] => rfl
      | root :: rest =>
          simp only [chainsLoopT, wtGo]
          cases hv : wtGo g f (.chain ((dlookup chains root).getD []) (startX + 150) y)
              (dinsert pos root (startX, y)) with
          | ok p2 =>
              obtain ⟨x2, pos2⟩ := p2
              have hrec := ih rest chains startX (y + 100) (max x2 maxX) pos2
                (tr ++ [(root, startX, x2)])
              cases hT : chainsLoopT g f rest chains startX (y + 100) (max x2 maxX) pos2
                  (tr ++ [(root, startX, x2)]) with
              | ok q =>
                  obtain ⟨m, p, tr2⟩ := q
                  rw [hT] at hrec
                  simp only [hT, hrec]
              | err => rw [hT] at hrec; simp only [hT, hrec]
              | spin => rw [hT] at hrec; simp only [hT, hrec]
          | err => simp only [hv]
          | spin => simp only [hv]

/-- C3 amended.  As stated the claim fails (see `c3_counterexample`):
the loop resets the x cursor to `start_x` for every chain, so each chain
of one parent starts at the same x — the second chain's starting x
equals the first chain's starting x and is in general strictly less
than the first chain's returned max-x; chains are separated vertically
(y advances by 100 per chain), not horizontally. -/
theorem c3_chains_same_start_amended (g : Graph) (f : Nat) (roots : List Nat)
    (chains : CMap) (startX y maxX : Int) (pos : PMap) (tr : List (Nat × Int × Int))
    (m : Int) (p : PMap) (tr' : List (Nat × Int × Int))
    (h : chainsLoopT g f roots chains startX y maxX pos tr = .ok (m, p, tr')) :
    ∃ δ, tr' = tr ++ δ ∧ ∀ e ∈ δ, e.2.1 = startX := by
  induction f generalizing roots y maxX pos tr with
  | zero => cases h
  | succ f ih =>
      match roots with
      | [] =>
          simp only [chainsLoopT, LRes.ok.injEq, Prod.mk.injEq] at h
          obtain ⟨-, -, rfl⟩ := h
          exact ⟨[], by simp, by simp⟩
      | root :: rest =>
          simp only [chainsLoopT] at h
          cases hv : wtGo g f (.chain ((dlookup chains root).getD []) (startX + 150) y)
              (dinsert pos root (startX, y)) with
          | ok p2 =>
              obtain ⟨x2, pos2⟩ := p2
              simp only [hv] at h
              obtain ⟨δ, h1, h2⟩ := ih rest (y + 100) (max x2 maxX) pos2
                (tr ++ [(root, startX, x2)]) h
              refine ⟨(root, startX, x2) :: δ, ?_, ?_⟩
              · rw [h1, List.append_assoc]
                rfl
              · intro e he
                rcases List.mem_cons.mp he with rfl | he
                · rfl
                · exact h2 e he
          | err => rw [hv] at h; cases h
          | spin => rw [hv] at h; cases h

/-- Witness for the amended C3 at a concrete input: in the run of `g3`
both chain roots are placed at the shared starting x = 0. -/
theorem c3_chains_same_start_amended_witness :
    ∃ δ, ([((1 : Nat), ((0 : Int), (300 : Int))), (2, (0, 300))] :
        List (Nat × Int × Int)) = [] ++ δ ∧ ∀ e ∈ δ, e.2.1 = (0 : Int) :=
  c3_chains_same_start_amended g3 9 [1, 2] [(1, [1]), (2, [2])] 0 200 150
    [(0, (0, 0))] [] 300 [(0, (0, 0)), (1, (150, 200)), (2, (150, 300))]
    [(1, 0, 300), (2, 0, 300)] rfl

/-- C5 amended.  As stated the claim fails (see `c5_counterexample`):
for a chain root the walker itself found (allowed and not yet in the
found map), the chain built by `walk_outputs` starts with the chain root
itself, and the layout loop re-invokes the Tree Walker on every chain
element including that root — so after the root is assigned
`(start_x, y)` it is walked again at `start_x + base_node_width`.  Only
a lost child (whose chain is empty) keeps the starting x. -/
theorem c5_chain_includes_root_amended (g : Graph) :
    (∀ ch f c found r, c ∈ ch → dlookup found c = none →
        walk_outputs g ch f c 0 (found, []) = .ok r → ∃ rest, r.2 = c :: rest) ∧
      ∀ f root rest chains startX y maxX pos cs,
        dlookup chains root = some (root :: cs) →
        wtGo g (f + 1) (.chains (root :: rest) chains startX y maxX) pos =
          match wtGo g f (.chain (root :: cs) (startX + 150) y)
              (dinsert pos root (startX, y)) with
          | .ok (x, pos2) =>
              wtGo g f (.chains rest chains startX (y + 100) (max x maxX)) pos2
          | .err => .err
          | .spin => .spin := by
  constructor
  · intro ch f c found r hc hnew h
    match f with
    | 0 =>
        rw [walk_outputs] at h
        simp only [woGo, if_pos hc] at h
        exact (LRes.noConfusion h)
    | f + 1 =>
        rw [walk_outputs] at h
        simp only [woGo, if_pos hc, hnew, Option.isSome_none, Bool.false_eq_true,
          if_false, List.nil_append] at h
        by_cases hk : c ∈ g.keys
        · rw [if_pos hk] at h
          obtain ⟨δ, h1, -, -⟩ := woGo_append g ch f _ _ _ h
          exact ⟨δ, by simpa using h1⟩
        · rw [if_neg hk] at h
          cases h
  · intro f root rest chains startX y maxX pos cs hlook
    simp only [wtGo, hlook, Option.getD_some]
    cases wtGo g f (.chain (root :: cs) (startX + 150) y) (dinsert pos root (startX, y))
      with
    | ok p2 => obtain ⟨a, b⟩ := p2; rfl
    | err => rfl
    | spin => rfl

/-- Witness for the amended C5 at a concrete input: seeding the chain of
child 1 of `g3` yields the chain `[1]` headed by the root itself, and
the chains loop re-invokes the walker on that chain. -/
theorem c5_chain_includes_root_amended_witness :
    (∃ rest, (([((1 : Nat), (0 : Int))], [1]) : FMap × List Nat).2 = 1 :: rest) ∧
      wtGo g3 9 (.chains [1, 2] [(1, [1]), (2, [2])] 0 200 150) [(0, (0, 0))] =
        match wtGo g3 8 (.chain [1] (0 + 150) 200) (dinsert [(0, (0, 0))] 1 (0, 200)) with
        | .ok (x, pos2) =>
            wtGo g3 8 (.chains [2] [(1, [1]), (2, [2])] 0 (200 + 100) (max x 150)) pos2
        | .err => .err
        | .spin => .spin :=
  ⟨(c5_chain_includes_root_amended g3).1 [1, 2] 9 1 [] ([(1, 0)], [1]) (by decide)
      rfl rfl,
    (c5_chain_includes_root_amended g3).2 8 1 [2] [(1, [1]), (2, [2])] 0 200 150
      [(0, (0, 0))] [] rfl⟩

/-- If a successful `walk_outputs` call starts at an allowed identity,
that identity ends up recorded in the found map. -/
theorem woGo_visit_found (g : Graph) (ch : List Nat) (f : Nat) (c : Nat) (lvl : Int)
    (found : FMap) (acc : List Nat) (res : FMap × List Nat)
    (hc : c ∈ ch) (h : woGo g ch f (.visit c lvl) (found, acc) = .ok res) :
    (dlookup res.1 c).isSome := by
  match f with
  | 0 =>
      simp only [woGo, if_pos hc] at h
      exact (LRes.noConfusion h)
  | f + 1 =>
      simp only [woGo, if_pos hc] at h
      by_cases hk : c ∈ g.keys
      · rw [if_pos hk] at h
        by_cases hf : (dlookup found c).isSome
        · rw [if_pos hf] at h
          obtain ⟨δ, -, -, hiff⟩ := woGo_append g ch f _ _ _ h
          exact (hiff c).mpr (Or.inl hf)
        · rw [if_neg hf] at h
          obtain ⟨δ, -, -, hiff⟩ := woGo_append g ch f _ _ _ h
          exact (hiff c).mpr (Or.inl ((isSome_dlookup_dinsert found c c lvl).mpr
            (Or.inl rfl)))
      · rw [if_neg hk] at h
        cases h

/-- Through the chain-seeding loop, every chain root is recorded in the
found map, and everything in the found map lies in some stored chain of
some chain root (or is itself a chain root). -/
theorem buildChains_cover (g : Graph) (f : Nat) (allIds : List Nat) :
    ∀ cs croots found chains croots' found' chains',
      cs.Nodup → (∀ x ∈ cs, x ∈ allIds) → (∀ r ∈ croots, r ∉ cs) →
      (∀ r ∈ croots, (dlookup found r).isSome) →
      (∀ k, (dlookup found k).isSome →
        (∃ r ∈ croots, k ∈ (dlookup chains r).getD []) ∨ k ∈ croots) →
      buildChains g f allIds cs croots found chains = .ok (croots', found', chains') →
      (∀ r ∈ croots', (dlookup found' r).isSome) ∧
        (∀ k, (dlookup found' k).isSome →
          (∃ r ∈ croots', k ∈ (dlookup chains' r).getD []) ∨ k ∈ croots') := by
  intro cs
  induction cs with
  | nil =>
      intro croots found chains croots' found' chains' _ _ _ hcrf hinv h
      simp only [buildChains, LRes.ok.injEq, Prod.mk.injEq] at h
      obtain ⟨rfl, rfl, rfl⟩ := h
      exact ⟨hcrf, hinv⟩
  | cons c rest ih =>
      intro croots found chains croots' found' chains' hnd hsub hdisj hcrf hinv h
      simp only [buildChains] at h
      by_cases hin : (g.node c).inputs.isEmpty
      · rw [if_pos hin] at h
        cases hw : woGo g allIds f (.visit c 0) (found, []) with
        | ok st1 =>
            obtain ⟨fd1, ch1⟩ := st1
            simp only [hw] at h
            obtain ⟨δ, hδ, -, hiff⟩ := woGo_append g allIds f _ _ _ hw
            simp only [List.nil_append] at hδ
            subst hδ
            refine ih (croots ++ [c]) fd1 (dinsert chains c ch1) croots' found' chains'
              hnd.of_cons (fun x hx => hsub x (List.mem_cons_of_mem _ hx)) ?_ ?_ ?_ h
            · intro r hr
              rcases List.mem_append.mp hr with hr | hr
              · exact fun hmem => hdisj r hr (List.mem_cons_of_mem _ hmem)
              · simp only [List.mem_singleton] at hr
                subst hr
                exact fun hmem => (List.nodup_cons.mp hnd).1 hmem
            · intro r hr
              rcases List.mem_append.mp hr with hr | hr
              · exact (hiff r).mpr (Or.inl (hcrf r hr))
              · simp only [List.mem_singleton] at hr
                subst hr
                exact woGo_visit_found g allIds f r 0 found [] _
                  (hsub r (by simp)) hw
            · intro k hkk
              rcases (hiff k).mp hkk with hkk | hkk
              · rcases hinv k hkk with ⟨r, hr1, hr2⟩ | hkk
                · refine Or.inl ⟨r, List.mem_append.mpr (Or.inl hr1), ?_⟩
                  have hne : r ≠ c := fun hh =>
                    hdisj r hr1 (hh ▸ List.mem_cons_self c rest)
                  rwa [dlookup_dinsert_ne chains c r ch1 hne]
                · exact Or.inr (List.mem_append.mpr (Or.inl hkk))
              · refine Or.inl ⟨c, List.mem_append.mpr (Or.inr (by simp)), ?_⟩
                rw [dlookup_dinsert_self chains c ch1]
                simpa using hkk
        | err => simp [hw] at h
        | spin => simp [hw] at h
      · rw [if_neg hin] at h
        exact ih croots found chains croots' found' chains' hnd.of_cons
          (fun x hx => hsub x (List.mem_cons_of_mem _ hx))
          (fun r hr hmem => hdisj r hr (List.mem_cons_of_mem _ hmem)) hcrf hinv h

/-- Through the lost-child loop, every child ends up in the found map,
and everything found lies in a stored chain of a chain root or is a
chain root itself. -/
theorem addLost_cover :
    ∀ cs croots found chains,
      (∀ r ∈ croots, (dlookup found r).isSome) →
      (∀ k, (dlookup found k).isSome →
        (∃ r ∈ croots, k ∈ (dlookup chains r).getD []) ∨ k ∈ croots) →
      (∀ r ∈ (addLost cs croots found chains).1,
          (dlookup (addLost cs croots found chains).2.1 r).isSome) ∧
        (∀ k, (dlookup (addLost cs croots found chains).2.1 k).isSome →
          (∃ r ∈ (addLost cs croots found chains).1,
            k ∈ (dlookup (addLost cs croots found chains).2.2 r).getD []) ∨
          k ∈ (addLost cs croots found chains).1) ∧
        (∀ c ∈ cs, (dlookup (addLost cs croots found chains).2.1 c).isSome) ∧
        (∀ k, (dlookup found k).isSome →
          (dlookup (addLost cs croots found chains).2.1 k).isSome) := by
  intro cs
  induction cs with
  | nil =>
      intro croots found chains hcrf hinv
      exact ⟨hcrf, hinv, fun c hc => (List.not_mem_nil c hc).elim, fun k hk => hk⟩
  | cons c rest ih =>
      intro croots found chains hcrf hinv
      simp only [addLost]
      by_cases hf : (dlookup found c).isSome
      · rw [if_pos hf]
        obtain ⟨h1, h2, h3, h4⟩ := ih croots found chains hcrf hinv
        refine ⟨h1, h2, ?_, h4⟩
        intro c' hc'
        rcases List.mem_cons.mp hc' with heq | hc'
        · rw [heq]
          exact h4 c hf
        · exact h3 c' hc'
      · rw [if_neg hf]
        have hcrf1 : ∀ r ∈ croots ++ [c], (dlookup (dinsert found c (-1)) r).isSome := by
          intro r hr
          rcases List.mem_append.mp hr with hr | hr
          · exact (isSome_dlookup_dinsert found c r (-1)).mpr (Or.inr (hcrf r hr))
          · simp only [List.mem_singleton] at hr
            rw [hr]
            exact (isSome_dlookup_dinsert found c c (-1)).mpr (Or.inl rfl)
        have hinv1 : ∀ k, (dlookup (dinsert found c (-1)) k).isSome →
            (∃ r ∈ croots ++ [c], k ∈ (dlookup (dinsert chains c []) r).getD []) ∨
              k ∈ croots ++ [c] := by
          intro k hkk
          rcases (isSome_dlookup_dinsert found c k (-1)).mp hkk with heq | hkk
          · exact Or.inr (List.mem_append.mpr (Or.inr (by simp [heq])))
          · rcases hinv k hkk with ⟨r, hr1, hr2⟩ | hkk
            · refine Or.inl ⟨r, List.mem_append.mpr (Or.inl hr1), ?_⟩
              have hne : r ≠ c := by
                rintro rfl
                exact (by simp [hcrf r hr1] at hf)
              rwa [dlookup_dinsert_ne chains c r [] hne]
            · exact Or.inr (List.mem_append.mpr (Or.inl hkk))
        obtain ⟨h1, h2, h3, h4⟩ := ih (croots ++ [c]) (dinsert found c (-1))
          (dinsert chains c []) hcrf1 hinv1
        refine ⟨h1, h2, ?_, ?_⟩
        · intro c' hc'
          rcases List.mem_cons.mp hc' with heq | hc'
          · rw [heq]
            exact h4 c ((isSome_dlookup_dinsert found c c (-1)).mpr (Or.inl rfl))
          · exact h3 c' hc'
        · intro k hk
          exact h4 k ((isSome_dlookup_dinsert found c k (-1)).mpr (Or.inr hk))

/-- Coverage invariant of the Tree Walker: a successful walk never
drops a position key, and positions its own node together with all of
that node's children (chain roots directly, chain members recursively,
lost children directly). -/
theorem wtGo_cover (g : Graph) (hwf : NodupChildren g) :
    ∀ f cmd pos x' pos', wtGo g f cmd pos = .ok (x', pos') →
      (∀ k ∈ dkeys pos, k ∈ dkeys pos') ∧ TCmdCover g cmd pos' := by
  intro f
  induction f with
  | zero => intro cmd pos x' pos' h; cases h
  | succ f ih =>
      intro cmd pos x' pos' h
      match cmd with
      | .node nid x y =>
          by_cases hk : nid ∈ g.keys
          · simp only [wtGo, if_pos hk] at h
            cases hb : buildChains g f (g.node nid).children (g.node nid).children [] [] []
              with
            | ok tr =>
                obtain ⟨croots, found, chains⟩ := tr
                simp only [hb] at h
                rcases hal : addLost (g.node nid).children croots found chains with
                  ⟨croots', found', chains'⟩
                simp only [hal] at h
                have hbc := buildChains_cover g f (g.node nid).children
                  (g.node nid).children [] [] [] croots found chains (hwf nid hk)
                  (fun x hx => hx) (fun r hr => (List.not_mem_nil r hr).elim)
                  (fun r hr => (List.not_mem_nil r hr).elim)
                  (fun k hkk => by simp [dlookup] at hkk) hb
                have hadd := addLost_cover (g.node nid).children croots found chains
                  hbc.1 hbc.2
                rw [hal] at hadd
                simp only at hadd
                have hI := ih (.chains croots' chains' x (y + 200) (x + 150)) _ _ _ h
                have hmono : ∀ k ∈ dkeys pos, k ∈ dkeys pos' := fun k hkk =>
                  hI.1 k ((mem_dkeys_dinsert pos nid k (x, y)).mpr (Or.inr hkk))
                have hself : nid ∈ dkeys pos' :=
                  hI.1 nid ((mem_dkeys_dinsert pos nid nid (x, y)).mpr (Or.inl rfl))
                refine ⟨hmono, hself, ?_⟩
                intro c hc
                have hfound := hadd.2.2.1 c hc
                rcases hadd.2.1 c hfound with ⟨r, hr1, hr2⟩ | hc'
                · exact (hI.2 r hr1).2 c hr2
                · exact (hI.2 c hc').1
            | err => simp [hb] at h
            | spin => simp [hb] at h
          · simp only [wtGo, if_neg hk] at h
            cases h
      | .chains roots chains startX y maxX =>
          match roots with
          | [] =>
              simp only [wtGo, LRes.ok.injEq, Prod.mk.injEq] at h
              obtain ⟨-, rfl⟩ := h
              exact ⟨fun k hk => hk, fun r hr => (List.not_mem_nil r hr).elim⟩
          | root :: rest =>
              simp only [wtGo] at h
              cases hv : wtGo g f
                  (.chain ((dlookup chains root).getD []) (startX + 150) y)
                  (dinsert pos root (startX, y)) with
              | ok p2 =>
                  obtain ⟨x2, pos2⟩ := p2
                  simp only [hv] at h
                  have h1 := ih (.chain ((dlookup chains root).getD []) (startX + 150) y)
                    _ _ _ hv
                  have h2 := ih (.chains rest chains startX (y + 100) (max x2 maxX)) _ _ _ h
                  refine ⟨fun k hkk => h2.1 k (h1.1 k
                    ((mem_dkeys_dinsert pos root k (startX, y)).mpr (Or.inr hkk))), ?_⟩
                  intro r hr
                  rcases List.mem_cons.mp hr with heq | hr
                  · subst heq
                    refine ⟨h2.1 r (h1.1 r
                      ((mem_dkeys_dinsert pos r r (startX, y)).mpr (Or.inl rfl))), ?_⟩
                    intro c hc
                    exact h2.1 c (h1.2 c hc)
                  · exact h2.2 r hr
              | err => simp [hv] at h
              | spin => simp [hv] at h
      | .chain lst cx y =>
          match lst with
          | [] =>
              simp only [wtGo, LRes.ok.injEq, Prod.mk.injEq] at h
              obtain ⟨-, rfl⟩ := h
              exact ⟨fun k hk => hk, fun c hc => (List.not_mem_nil c hc).elim⟩
          | c :: cs =>
              simp only [wtGo] at h
              cases hv : wtGo g f (.node c cx y) pos with
              | ok p2 =>
                  obtain ⟨x2, pos2⟩ := p2
                  simp only [hv] at h
                  have h1 := ih (.node c cx y) _ _ _ hv
                  have h2 := ih (.chain cs x2 y) _ _ _ h
                  refine ⟨fun k hkk => h2.1 k (h1.1 k hkk), ?_⟩
                  intro c' hc'
                  rcases List.mem_cons.mp hc' with heq | hc'
                  · subst heq
                    exact h2.1 c' h1.2.1
                  · exact h2.2 c' hc'
              | err => simp [hv] at h
              | spin => simp [hv] at h

/-- C6 amended.  As stated the claim fails (see `c6_counterexample`):
descendants of a lost child — not only output-cycle participants — can
be missed by the walk.  What does hold (for graphs with duplicate-free
children lists): when the Tree Walker call on a starting node returns,
the starting node itself and every direct child of it hold a position;
children reached through chains are walked recursively, while lost
children are positioned without recursion, leaving their own
descendants to orphan reconciliation. -/
theorem c6_children_placed_amended (g : Graph) (fuel : Nat) (nid : Nat) (x y : Int)
    (pos : PMap) (x' : Int) (pos' : PMap) (hwf : NodupChildren g)
    (h : walk_tree g fuel nid x y pos = .ok (x', pos')) :
    nid ∈ dkeys pos' ∧ ∀ c ∈ (g.node nid).children, c ∈ dkeys pos' :=
  (wtGo_cover g hwf fuel (.node nid x y) pos x' pos' h).2

/-- Witness for the amended C6 at a concrete input: walking root 0 of
`g3` positions 0 and both of its children. -/
theorem c6_children_placed_amended_witness :
    0 ∈ dkeys [((0 : Nat), ((0 : Int), (0 : Int))), (1, (150, 200)), (2, (150, 300))] ∧
      ∀ c ∈ (g3.node 0).children,
        c ∈ dkeys [((0 : Nat), ((0 : Int), (0 : Int))), (1, (150, 200)), (2, (150, 300))] :=
  c6_children_placed_amended g3 10 0 0 0 [] 300
    [(0, (0, 0)), (1, (150, 200)), (2, (150, 300))]
    (by unfold NodupChildren; decide) rfl

/-! ## Lemmas about topological layer assignment -/

theorem filter_not_mem_perm (rem : List Nat) (p : Nat → Bool) :
    (rem.filter p ++ rem.filter (fun id => decide (id ∉ rem.filter p))).Perm rem := by
  have hcongr : rem.filter (fun id => decide (id ∉ rem.filter p)) =
      rem.filter (fun id => !p id) := by
    apply List.filter_congr
    intro x hx
    by_cases hpx : p x <;> simp [List.mem_filter, hx, hpx]
  rw [hcongr]
  exact List.filter_append_perm p rem

/-- Every member of every produced layer was in the remaining set. -/
theorem topoLoop_layers_sub (g : Graph) :
    ∀ f rem d l x, l ∈ (topoLoop g f rem d).1 → x ∈ l → x ∈ rem := by
  intro f
  induction f with
  | zero => intro rem d l x hl _; simp [topoLoop] at hl
  | succ f ih =>
      intro rem d l x hl hx
      match rem with
      | [] => simp [topoLoop] at hl
      | r0 :: rest =>
          simp only [topoLoop] at hl
          rcases List.mem_cons.mp hl with heq | hl
          · subst heq
            by_cases hz : ((r0 :: rest).filter (fun id => decide (d id = 0))).isEmpty
            · rw [if_pos hz] at hx
              simp only [List.mem_singleton] at hx
              rw [hx]
              exact List.mem_cons_self r0 rest
            · rw [if_neg hz] at hx
              exact List.mem_of_mem_filter hx
          · have := ih _ _ l x hl hx
            exact List.mem_of_mem_filter this

/-- With `rem.length` fuel the loop places every remaining node exactly
once: the concatenation of the produced layers is a permutation of the
remaining set. -/
theorem topoLoop_join_perm (g : Graph) :
    ∀ f rem d, rem.Nodup → rem.length ≤ f →
      ((topoLoop g f rem d).1).flatten.Perm rem := by
  intro f
  induction f with
  | zero =>
      intro rem d _ hlen
      have hnil : rem = [] := List.eq_nil_of_length_eq_zero (Nat.le_zero.mp hlen)
      subst hnil
      simp [topoLoop]
  | succ f ih =>
      intro rem d hnd hlen
      match rem with
      | [] => simp [topoLoop]
      | r0 :: rest =>
          simp only [topoLoop]
          by_cases hz : ((r0 :: rest).filter (fun id => decide (d id = 0))).isEmpty
          · rw [if_pos hz]
            have hrem' : (r0 :: rest).filter (fun id => decide (id ∉ [r0])) = rest := by
              simp only [List.filter_cons]
              rw [if_neg (by simp)]
              apply List.filter_eq_self.mpr
              intro x hx
              have : x ≠ r0 := by
                rintro rfl
                exact (List.nodup_cons.mp hnd).1 hx
              simp [this]
            rw [hrem']
            have hIH := ih rest (decLayer g d [r0]) (List.nodup_cons.mp hnd).2
              (by simpa using hlen)
            simpa [List.flatten_cons] using hIH.cons r0
          · rw [if_neg hz]
            have hperm := filter_not_mem_perm (r0 :: rest)
              (fun id => decide (d id = 0))
            have hlen2 : ((r0 :: rest).filter
                (fun id => decide (id ∉ (r0 :: rest).filter
                  (fun id => decide (d id = 0))))).length ≤ f := by
              have h1 := hperm.length_eq
              simp only [List.length_append] at h1
              have h2 : 1 ≤ ((r0 :: rest).filter (fun id => decide (d id = 0))).length := by
                cases hc : (r0 :: rest).filter (fun id => decide (d id = 0)) with
                | nil => rw [hc] at hz; simp at hz
                | cons a l => simp
              simp only [List.length_cons] at hlen h1
              omega
            have hnd2 : ((r0 :: rest).filter
                (fun id => decide (id ∉ (r0 :: rest).filter
                  (fun id => decide (d id = 0))))).Nodup := hnd.filter _
            have hIH := ih ((r0 :: rest).filter
                (fun id => decide (id ∉ (r0 :: rest).filter
                  (fun id => decide (d id = 0)))))
              (decLayer g d ((r0 :: rest).filter (fun id => decide (d id = 0))))
              hnd2 hlen2
            rw [List.flatten_cons]
            exact (List.Perm.append_left _ hIH).trans hperm

theorem foldl_decOne_apply (g : Graph) :
    ∀ (lst : List Nat) (d : Nat → Int) (k : Nat), k ∈ g.keys →
      (lst.foldl (decOne g) d) k = d k - (lst.count k : Int) := by
  intro lst
  induction lst with
  | nil => intro d k _; simp
  | cons c rest ih =>
      intro d k hk
      have hstep : decOne g d c k = d k - if c = k then 1 else 0 := by
        by_cases hck : c = k
        · subst hck
          simp [decOne, hk]
        · by_cases hcg : c ∈ g.keys <;> simp [decOne, hcg, Ne.symm hck, hck]
      rw [List.foldl_cons, ih (decOne g d c) k hk, hstep, List.count_cons]
      by_cases hck : c = k
      · simp only [hck, if_pos rfl, beq_self_eq_true, if_true]
        push_cast
        ring
      · simp only [hck, if_neg hck, beq_iff_eq, if_false]
        push_cast
        ring

theorem decLayer_apply (g : Graph) :
    ∀ layer (d : Nat → Int) (k : Nat), k ∈ g.keys →
      decLayer g d layer k =
        d k - ((layer.map fun q => (g.node q).children.count k).sum : Int) := by
  intro layer
  induction layer with
  | nil => intro d k _; simp [decLayer]
  | cons q rest ih =>
      intro d k hk
      simp only [decLayer, List.foldl_cons] at ih ⊢
      rw [ih (decNode g d q) k hk]
      have hq : decNode g d q k = d k - ((g.node q).children.count k : Int) := by
        simp only [decNode]
        exact foldl_decOne_apply g (g.node q).children d k hk
      rw [hq, List.map_cons, List.sum_cons]
      push_cast
      ring

theorem mem_getD_mem (L : List (List Nat)) (i : Nat) (x : Nat)
    (hx : x ∈ L.getD i []) : L.getD i [] ∈ L := by
  induction L generalizing i with
  | nil => simp at hx
  | cons a L ih =>
      match i with
      | 0 => simp
      | i + 1 =>
          simp only [List.getD_cons_succ] at hx ⊢
          exact List.mem_cons_of_mem a (ih i hx)

/-- Strict layer ordering: with consistent in-degree bookkeeping on the
remaining set and no cycle break during the whole run, for every
containment edge whose two ends appear in produced layers, the child's
layer index is strictly greater than the parent's. -/
theorem topoLoop_ordering (g : Graph) :
    ∀ f rem d, rem.Nodup → (∀ x ∈ rem, x ∈ g.keys) → rem.length ≤ f →
      (∀ c ∈ rem, d c = ((rem.map fun q => (g.node q).children.count c).sum : Int)) →
      (topoLoop g f rem d).2 = false →
      ∀ p c, c ∈ (g.node p).children →
        ∀ i j, p ∈ (topoLoop g f rem d).1.getD i [] →
          c ∈ (topoLoop g f rem d).1.getD j [] → i < j := by
  intro f
  induction f with
  | zero =>
      intro rem d _ _ _ _ _ p c _ i j hp _
      simp [topoLoop] at hp
  | succ f ih =>
      intro rem d hnd hsub hlen hinv hflag p c hedge i j hp hc
      match rem with
      | [] => simp [topoLoop] at hp
      | r0 :: rest =>
          simp only [topoLoop] at hflag hp hc
          rcases Bool.or_eq_false_iff.mp hflag with ⟨hzs, hflag2⟩
          simp only [hzs, Bool.false_eq_true, if_false] at hp hc hflag2
          have hzero : ∀ c', c' ∈ (r0 :: rest).filter (fun id => decide (d id = 0)) →
              ∀ q ∈ (r0 :: rest), c' ∉ (g.node q).children := by
            intro c' hc' q hq hmem
            have hc'rem : c' ∈ (r0 :: rest) := List.mem_of_mem_filter hc'
            have hdc : d c' = 0 := by simpa using List.of_mem_filter hc'
            have hsum := hinv c' hc'rem
            rw [hdc] at hsum
            have hs0 : ((r0 :: rest).map fun q' => (g.node q').children.count c').sum
                = 0 := by exact_mod_cast hsum.symm
            have hq0 : (g.node q).children.count c' = 0 :=
              List.sum_eq_zero_iff.mp hs0 _
                (List.mem_map_of_mem (fun q' => (g.node q').children.count c') hq)
            exact (List.count_eq_zero.mp hq0) hmem
          match i, j with
          | 0, 0 =>
              simp only [List.getD_cons_zero] at hp hc
              exact absurd hedge (hzero c hc p (List.mem_of_mem_filter hp))
          | 0, j + 1 => exact Nat.succ_pos j
          | i + 1, 0 =>
              simp only [List.getD_cons_zero] at hc
              simp only [List.getD_cons_succ] at hp
              have hpl := mem_getD_mem _ i p hp
              have hprem' := topoLoop_layers_sub g f _ _ _ p hpl hp
              have hprem : p ∈ (r0 :: rest) := List.mem_of_mem_filter hprem'
              exact absurd hedge (hzero c hc p hprem)
          | i + 1, j + 1 =>
              simp only [List.getD_cons_succ] at hp hc
              have hperm := filter_not_mem_perm (r0 :: rest)
                (fun id => decide (d id = 0))
              have hnd2 : ((r0 :: rest).filter
                  (fun id => decide (id ∉ (r0 :: rest).filter
                    (fun id => decide (d id = 0))))).Nodup := hnd.filter _
              have hsub2 : ∀ x ∈ (r0 :: rest).filter
                  (fun id => decide (id ∉ (r0 :: rest).filter
                    (fun id => decide (d id = 0)))), x ∈ g.keys :=
                fun x hx => hsub x (List.mem_of_mem_filter hx)
              have hlen2 : ((r0 :: rest).filter
                  (fun id => decide (id ∉ (r0 :: rest).filter
                    (fun id => decide (d id = 0))))).length ≤ f := by
                have h1 := hperm.length_eq
                simp only [List.length_append] at h1
                have h2 : 1 ≤ ((r0 :: rest).filter
                    (fun id => decide (d id = 0))).length := by
                  cases hcc : (r0 :: rest).filter (fun id => decide (d id = 0)) with
                  | nil => rw [hcc] at hzs; simp at hzs
                  | cons a l => simp
                simp only [List.length_cons] at hlen h1
                omega
              have hsumsplit : ∀ c' : Nat,
                  ((r0 :: rest).map fun q => (g.node q).children.count c').sum =
                    (((r0 :: rest).filter (fun id => decide (d id = 0))).map
                      (fun q => (g.node q).children.count c')).sum +
                    (((r0 :: rest).filter
                      (fun id => decide (id ∉ (r0 :: rest).filter
                        (fun id => decide (d id = 0))))).map
                      (fun q => (g.node q).children.count c')).sum := by
                intro c'
                have := (hperm.map fun q => (g.node q).children.count c').sum_eq
                rw [List.map_append, List.sum_append] at this
                omega
              have hinv2 : ∀ c' ∈ (r0 :: rest).filter
                  (fun id => decide (id ∉ (r0 :: rest).filter
                    (fun id => decide (d id = 0)))),
                  decLayer g d ((r0 :: rest).filter (fun id => decide (d id = 0))) c' =
                    ((((r0 :: rest).filter
                      (fun id => decide (id ∉ (r0 :: rest).filter
                        (fun id => decide (d id = 0))))).map
                      fun q => (g.node q).children.count c').sum : Int) := by
                intro c' hc'
                rw [decLayer_apply g _ d c' (hsub2 c' hc'),
                  hinv c' (List.mem_of_mem_filter hc'), hsumsplit c']
                push_cast
                ring
              have := ih _ _ hnd2 hsub2 hlen2 hinv2 hflag2 p c hedge i j hp hc
              omega

/-- C7 amended.  As stated the claim fails on graphs with asymmetric
parent/child bookkeeping (see `c7_counterexample`).  What holds:
(1) unconditionally, every node with an empty `parents` list lands in
the first layer (layer index 0); (2) unconditionally, the produced
layers partition the Graph keys — every key appears in exactly one
layer, no node is lost; (3) when the `parents` lengths are consistent
with the `children` lists (each node's in-degree equals its number of
occurrences as a child) and no cycle-forced deadlock break occurred,
every containment edge goes from a strictly smaller layer index to a
strictly larger one. -/
theorem c7_topological_layers_amended (g : Graph) :
    (∀ k ∈ g.keys, (g.node k).parents = [] →
        ∃ l0 ls, topological_layers g = l0 :: ls ∧ k ∈ l0) ∧
      (topological_layers g).flatten.Perm g.keys ∧
      (ConsistentDeg g → topoBroke g = false →
        ∀ p c, c ∈ (g.node p).children →
          ∀ i j, p ∈ (topological_layers g).getD i [] →
            c ∈ (topological_layers g).getD j [] → i < j) := by
  refine ⟨?_, ?_, ?_⟩
  · intro k hk hpar
    unfold topological_layers
    cases hkeys : g.keys with
    | nil => rw [hkeys] at hk; cases hk
    | cons r0 rest =>
        rw [hkeys] at hk
        simp only [hkeys, List.length_cons, topoLoop]
        have hkz : k ∈ (r0 :: rest).filter (fun id => decide (inDeg0 g id = 0)) := by
          apply List.mem_filter.mpr
          refine ⟨hk, ?_⟩
          simp [inDeg0, hpar]
        have hz : ((r0 :: rest).filter
            (fun id => decide (inDeg0 g id = 0))).isEmpty = false := by
          cases hcc : (r0 :: rest).filter (fun id => decide (inDeg0 g id = 0)) with
          | nil => rw [hcc] at hkz; cases hkz
          | cons a l => rfl
        rw [if_neg (by rw [hz]; exact Bool.false_ne_true)]
        exact ⟨_, _, rfl, hkz⟩
  · exact topoLoop_join_perm g g.keys.length g.keys (inDeg0 g) g.nodup
      (Nat.le_refl _)
  · intro hcons hbroke p c hedge i j hp hc
    have hinv0 : ∀ c' ∈ g.keys, inDeg0 g c' =
        ((g.keys.map fun q => (g.node q).children.count c').sum : Int) := by
      intro c' hc'
      simp only [inDeg0]
      exact_mod_cast congrArg (fun n : Nat => (n : Int)) (hcons c' hc')
    exact topoLoop_ordering g g.keys.length g.keys (inDeg0 g) g.nodup
      (fun x hx => hx) (Nat.le_refl _) hinv0 hbroke p c hedge i j hp hc

/-- Witness for the amended C7 at a concrete input: on the consistent
two-node graph `gT`, the parentless node 0 is in layer 0, the layers
partition the keys, and the theorem's ordering part applies to the edge
0 → 1 in layers 0 and 1. -/
theorem c7_topological_layers_amended_witness :
    (∃ l0 ls, topological_layers gT = l0 :: ls ∧ 0 ∈ l0) ∧
      (topological_layers gT).flatten.Perm gT.keys ∧ (0 : Nat) < 1 :=
  ⟨(c7_topological_layers_amended gT).1 0 (by decide) rfl,
    (c7_topological_layers_amended gT).2.1,
    (c7_topological_layers_amended gT).2.2 (by unfold ConsistentDeg; decide) rfl 0 1
      (by decide) 0 1 (by decide) (by decide)⟩

/-! ## Counterexamples -/

/-- Counterexample to C1 as stated.  On the malformed graph `gM`
(root 0's `children` mentions identity 1, which is not a key), layout
returns normally but the returned Position Map contains key 1, which is
not a key of the Graph: the key sets differ. -/
theorem c1_counterexample :
    calculate_layout gM 10 = .ok [(0, (0, 0)), (1, (0, 200))] ∧
      1 ∈ dkeys [((0 : Nat), ((0 : Int), (0 : Int))), (1, (0, 200))] ∧
      1 ∉ gM.keys := by
  exact ⟨rfl, by decide, by decide⟩

/-- Counterexample to C3 as stated.  In `g3L` the two lost-child chains
under parent 0 are laid out with trace `[(1, 0, 150), (2, 0, 150)]`
(chain root, starting x, returned x): the first chain returns max-x 150,
yet the second chain's root is placed at x = 0, and 0 < 150.  The final
Position Map confirms node 2 sits at (0, 300). -/
theorem c3_counterexample :
    buildChains g3L 9 [1, 2] [1, 2] [] [] [] = .ok ([], [], []) ∧
      addLost [1, 2] [] [] [] = ([1, 2], [(1, -1), (2, -1)], [(1, []), (2, [])]) ∧
      chainsLoopT g3L 9 [1, 2] [(1, []), (2, [])] 0 200 150 [(0, (0, 0))] [] =
        .ok (150, [(0, (0, 0)), (1, (0, 200)), (2, (0, 300))],
          [(1, 0, 150), (2, 0, 150)]) ∧
      calculate_layout g3L 10 = .ok [(0, (0, 0)), (1, (0, 200)), (2, (0, 300))] ∧
      ¬ ((0 : Int) ≥ 150) := by
  exact ⟨rfl, rfl, rfl, rfl, by decide⟩

/-- Counterexample to C5 as stated.  In `g3` the chain seeded at child 1
is `[1]` — it contains the chain root itself — so after the root is
assigned (0, 200) the Tree Walker is re-invoked on it at the advanced
cursor, and its final position is (150, 200): the final x is
`start_x + base_node_width`, not the chain's starting x cursor 0
recorded in the trace. -/
theorem c5_counterexample :
    buildChains g3 9 [1, 2] [1, 2] [] [] [] =
        .ok ([1, 2], [(1, 0), (2, 0)], [(1, [1]), (2, [2])]) ∧
      chainsLoopT g3 9 [1, 2] [(1, [1]), (2, [2])] 0 200 150 [(0, (0, 0))] [] =
        .ok (300, [(0, (0, 0)), (1, (150, 200)), (2, (150, 300))],
          [(1, 0, 300), (2, 0, 300)]) ∧
      calculate_layout g3 10 = .ok [(0, (0, 0)), (1, (150, 200)), (2, (150, 300))] ∧
      dlookup [((0 : Nat), ((0 : Int), (0 : Int))), (1, (150, 200)), (2, (150, 300))] 1 =
        some (150, 200) ∧
      (150 : Int) ≠ 0 := by
  exact ⟨rfl, rfl, rfl, rfl, by decide⟩

/-- Counterexample to C6 as stated.  In `g6`, node 2 is reachable from
starting node 0 through children (0 → 1 → 2), participates in no output
cycle (it has no outputs at all), yet when the Tree Walker call on 0
returns, node 2 has no position: its parent 1 was a lost child and lost
children are positioned without recursing into their own children. -/
theorem c6_counterexample :
    walk_tree g6 10 0 0 0 [] = .ok (150, [(0, (0, 0)), (1, (0, 200))]) ∧
      1 ∈ (g6.node 0).children ∧ 2 ∈ (g6.node 1).children ∧
      (g6.node 2).outputs = [] ∧
      dlookup [((0 : Nat), ((0 : Int), (0 : Int))), (1, (0, 200))] 2 = none := by
  exact ⟨rfl, by decide, by decide, rfl, rfl⟩

/-- Counterexample to C7 as stated.  In `gA` node 0 lists 1 as a child
while node 1's `parents` list is empty (asymmetric bookkeeping): both
nodes are put into layer 0 without any cycle-forced deadlock break, so
the containment edge 0 → 1 does not satisfy
layer(child) > layer(parent). -/
theorem c7_counterexample :
    topological_layers gA = [[0, 1]] ∧ topoBroke gA = false ∧
      1 ∈ (gA.node 0).children ∧ (gA.node 1).parents = [] := by
  exact ⟨rfl, rfl, by decide, rfl⟩

end DagViewer
